import Mathlib

/-!
Verification of the pants dependency-graph engine (`src/rust/engine/graph/src/lib.rs`).

The Rust source is shallowly embedded: `InnerGraph` becomes a record of an
entry arena (a list indexed by `EntryId = Nat`), a directed edge list and a
draining flag; the petgraph node indices become list indices.  The per-entry
state machine lives in `entry.rs`, which is not part of the sources at hand,
so the fields the graph code reads (`is_started`, `is_clean`, `dirty`,
`clear`, `run_token`) are modelled from the specification, as marked on each
definition.  All functions are executable so that concrete runs of the code
can be evaluated inside proofs.
-/

namespace PantsGraph

/-- Modelled from the spec: the engine-native error kinds of `N::Error`
(`invalidated`, `cyclic(path)`, `exhausted`, plus opaque runner errors).
The concrete error type is supplied by the node trait, which is outside the
graph crate; the spec requires equality against `invalidated` and a
cycle-path constructor. -/
inductive NError where
  | invalidated : NError
  | exhausted : NError
  | cyclic (path : List String) : NError
  | other (n : Nat) : NError
deriving DecidableEq, Repr

/-- Modelled from the spec: the entry state machine of `entry.rs` (not under
the sources at hand), restricted to the fields the graph code reads: the
lifecycle tag, the run token, the generation and the dirty bit of a
completed value. -/
inductive EntryStateM where
  | notStarted (runToken : Nat) : EntryStateM
  | running (runToken : Nat) : EntryStateM
  | completed (runToken : Nat) (generation : Nat) (dirty : Bool) : EntryStateM
deriving DecidableEq, Repr

/-- An entry of the graph arena: a node key plus its state. -/
structure Entry (N : Type) where
  node : N
  state : EntryStateM
deriving DecidableEq, Repr

/-- Modelled from the spec: `Entry::run_token` returns the current run token. -/
def runTokenOf : EntryStateM → Nat
  | .notStarted rt => rt
  | .running rt => rt
  | .completed rt _ _ => rt

/-- Modelled from the spec: `Entry::is_started` — a `NotStarted` entry has not
started; `Running` and `Completed` entries have. -/
def isStarted : EntryStateM → Bool
  | .notStarted _ => false
  | .running _ => true
  | .completed _ _ _ => true

/-- Modelled from the spec: `Entry::is_clean` — a completed entry is clean when
its dirty bit is unset; entries that have not completed have no stale value
and count as clean (spec scenario 4 relies on freshly running entries being
clean). -/
def isClean : EntryStateM → Bool
  | .notStarted _ => true
  | .running _ => true
  | .completed _ _ d => !d

/-- Modelled from the spec: `Entry::clear` — drop the value, transition to
`NotStarted` and bump the run token. -/
def clearState (s : EntryStateM) : EntryStateM :=
  .notStarted (runTokenOf s + 1)

/-- Modelled from the spec: `Entry::dirty` — set the dirty bit of a completed
entry (edges are kept); bump the run token of a running entry; leave a
`NotStarted` entry untouched. -/
def dirtyState : EntryStateM → EntryStateM
  | .notStarted rt => .notStarted rt
  | .running rt => .running (rt + 1)
  | .completed rt g _ => .completed rt g true

/-- The result record of `invalidate_from_roots`. -/
structure InvalidationResult where
  cleared : Nat
  dirtied : Nat
deriving DecidableEq, Repr

/-- The inner graph: the entry arena (`EntryId` = list index), the directed
dependency edges (one `(src, dst)` pair per edge, all of weight 1.0) and the
draining flag. -/
structure InnerGraph (N : Type) where
  entries : List (Entry N)
  edges : List (Nat × Nat)
  draining : Bool
deriving DecidableEq, Repr

/-- Traversal direction, as in `petgraph::Direction`. -/
inductive Direction where
  | outgoing : Direction
  | incoming : Direction
deriving DecidableEq, Repr

/-- The endpoint an edge is walked from, under a direction. -/
def dirFrom : Direction → Nat × Nat → Nat
  | .outgoing, e => e.1
  | .incoming, e => e.2

/-- The endpoint an edge is walked to, under a direction. -/
def dirTo : Direction → Nat × Nat → Nat
  | .outgoing, e => e.2
  | .incoming, e => e.1

/-- `neighbors_directed id dir` over an edge list. -/
def nbrs (es : List (Nat × Nat)) (d : Direction) (id : Nat) : List Nat :=
  (es.filter (fun e => dirFrom d e = id)).map (dirTo d)

/-- `Walk::next`, iterated to a list: pop the front of the deque; a node that
was already walked, or at which the stop predicate holds, is skipped (it is
inserted into the walked set but not yielded and its neighbors are not
enqueued); otherwise it is yielded and its neighbors are enqueued.  The fuel
argument makes the recursion structural; every caller passes enough fuel for
the deque to drain (see `walkAux_spec`). -/
def walkAux (es : List (Nat × Nat)) (d : Direction) (stop : Nat → Bool) :
    Nat → List Nat → List Nat → List Nat
  | 0, _, _ => []
  | _ + 1, [], _ => []
  | fuel + 1, id :: dq, walked =>
    if id ∈ walked then walkAux es d stop fuel dq walked
    else if stop id then walkAux es d stop fuel dq (id :: walked)
    else id :: walkAux es d stop fuel (dq ++ nbrs es d id) (id :: walked)

/-- `InnerGraph::walk`: begin a walk from the given roots.  The fuel
`roots.length + edges.length + 1` always suffices (`phi_lt_fuel`). -/
def walkList (g : InnerGraph N) (d : Direction) (stop : Nat → Bool)
    (roots : List Nat) : List Nat :=
  walkAux g.edges d stop (roots.length + g.edges.length + 1) roots []

/-! ### Termination potential for the walk

Each `Walk::next` step pops one deque element; neighbors are enqueued only on
the first visit of a node, so every edge is enqueued at most once.  The
potential `phi` (deque length plus the number of edges whose walked-from
endpoint is not yet visited) strictly decreases at every step. -/

/-- Potential of a walk state. -/
def phi (es : List (Nat × Nat)) (d : Direction) (dq walked : List Nat) : Nat :=
  dq.length + (es.filter (fun e => dirFrom d e ∉ walked)).length

theorem filter_imp_length_le {α : Type} (p q : α → Bool)
    (h : ∀ a, p a = true → q a = true) :
    ∀ l : List α, (l.filter p).length ≤ (l.filter q).length := by
  intro l
  induction l with
  | nil => simp
  | cons a l ih =>
    by_cases hp : p a = true
    · simp [List.filter_cons, hp, h a hp]; omega
    · simp only [List.filter_cons, Bool.not_eq_true] at hp ⊢
      rw [hp]
      by_cases hq : q a = true
      · simp [hq]; omega
      · simp only [Bool.not_eq_true] at hq
        rw [hq]; simpa using ih

theorem phi_filter_cons (es : List (Nat × Nat)) (d : Direction) (id : Nat)
    (walked : List Nat) (h : id ∉ walked) :
    (es.filter (fun e => dirFrom d e ∉ walked)).length
      = (es.filter (fun e => dirFrom d e ∉ (id :: walked))).length
        + (nbrs es d id).length := by
  induction es with
  | nil => simp [nbrs]
  | cons e es ih =>
    by_cases h1 : dirFrom d e = id
    · have hw : dirFrom d e ∉ walked := by rw [h1]; exact h
      simp [nbrs, List.filter_cons, List.mem_cons, h1, hw, h] at ih ⊢
      omega
    · by_cases h2 : dirFrom d e ∈ walked
      · simp [nbrs, List.filter_cons, List.mem_cons, h1, h2] at ih ⊢
        omega
      · simp [nbrs, List.filter_cons, List.mem_cons, h1, h2] at ih ⊢
        omega

/-! ### Availability: which nodes a walk can reach -/

/-- A node is available to the walk when it is in the deque, or is a neighbor
of an available node that is neither walked nor stopped. -/
inductive Avail (es : List (Nat × Nat)) (d : Direction) (stop : Nat → Bool)
    (walked : List Nat) : List Nat → Nat → Prop
  | base {dq : List Nat} {v : Nat} (hv : v ∈ dq) : Avail es d stop walked dq v
  | step {dq : List Nat} {u v : Nat} (hu : Avail es d stop walked dq u)
      (hw : u ∉ walked) (hs : stop u = false) (hn : v ∈ nbrs es d u) :
      Avail es d stop walked dq v

theorem Avail.mono_dq {es : List (Nat × Nat)} {d : Direction} {stop : Nat → Bool}
    {walked dq dq' : List Nat} {v : Nat} (hsub : ∀ x ∈ dq, x ∈ dq')
    (h : Avail es d stop walked dq v) : Avail es d stop walked dq' v := by
  induction h with
  | base hv => exact .base (hsub _ hv)
  | step _ hw hs hn ih => exact .step ih hw hs hn

theorem Avail.anti_walked {es : List (Nat × Nat)} {d : Direction} {stop : Nat → Bool}
    {walked walked' dq : List Nat} {v : Nat} (hsub : ∀ x ∈ walked', x ∈ walked)
    (h : Avail es d stop walked dq v) : Avail es d stop walked' dq v := by
  induction h with
  | base hv => exact .base hv
  | step _ hw hs hn ih => exact .step ih (fun hc => hw (hsub _ hc)) hs hn

theorem avail_nil {es : List (Nat × Nat)} {d : Direction} {stop : Nat → Bool}
    {walked : List Nat} {v : Nat} (h : Avail es d stop walked [] v) : False := by
  induction h with
  | base hv => exact (List.not_mem_nil _) hv
  | step _ _ _ _ ih => exact ih

theorem avail_cons_walked {es : List (Nat × Nat)} {d : Direction} {stop : Nat → Bool}
    {walked dq : List Nat} {id v : Nat} (hid : id ∈ walked) :
    Avail es d stop walked (id :: dq) v ↔ v = id ∨ Avail es d stop walked dq v := by
  constructor
  · intro h
    induction h with
    | base hv =>
      rcases List.mem_cons.mp hv with h | h
      · exact Or.inl h
      · exact Or.inr (.base h)
    | step _ hw hs hn ih =>
      rcases ih with rfl | ih
      · exact absurd hid hw
      · exact Or.inr (.step ih hw hs hn)
  · rintro (rfl | h)
    · exact .base (List.mem_cons_self _ _)
    · exact h.mono_dq (fun x hx => List.mem_cons_of_mem _ hx)

theorem avail_cons_stopped {es : List (Nat × Nat)} {d : Direction} {stop : Nat → Bool}
    {walked dq : List Nat} {id v : Nat} (hstop : stop id = true) :
    Avail es d stop walked (id :: dq) v ↔
      v = id ∨ Avail es d stop (id :: walked) dq v := by
  constructor
  · intro h
    induction h with
    | base hv =>
      rcases List.mem_cons.mp hv with h | h
      · exact Or.inl h
      · exact Or.inr (.base h)
    | step _ hw hs hn ih =>
      rcases ih with rfl | ih
      · rw [hstop] at hs; exact absurd hs (by simp)
      · refine Or.inr (.step ih ?_ hs hn)
        intro hc
        rcases List.mem_cons.mp hc with rfl | hc
        · rw [hstop] at hs; exact absurd hs (by simp)
        · exact hw hc
  · rintro (rfl | h)
    · exact .base (List.mem_cons_self _ _)
    · exact (h.anti_walked (fun x hx => List.mem_cons_of_mem _ hx)).mono_dq
        (fun x hx => List.mem_cons_of_mem _ hx)

theorem avail_cons_visit {es : List (Nat × Nat)} {d : Direction} {stop : Nat → Bool}
    {walked dq : List Nat} {id v : Nat} (hid : id ∉ walked) (hstop : stop id = false) :
    Avail es d stop walked (id :: dq) v ↔
      v = id ∨ Avail es d stop (id :: walked) (dq ++ nbrs es d id) v := by
  constructor
  · intro h
    induction h with
    | base hv =>
      rcases List.mem_cons.mp hv with h | h
      · exact Or.inl h
      · exact Or.inr (.base (List.mem_append_left _ h))
    | @step u v' _ hw hs hn ih =>
      by_cases hui : u = id
      · subst hui
        exact Or.inr (.base (List.mem_append_right _ hn))
      · rcases ih with rfl | ih
        · exact absurd rfl hui
        · refine Or.inr (.step ih ?_ hs hn)
          intro hc
          rcases List.mem_cons.mp hc with h | hc
          · exact hui h
          · exact hw hc
  · rintro (rfl | h)
    · exact .base (List.mem_cons_self _ _)
    · induction h with
      | base hv =>
        rcases List.mem_append.mp hv with h | h
        · exact .base (List.mem_cons_of_mem _ h)
        · exact .step (.base (List.mem_cons_self _ _)) hid hstop h
      | step _ hw hs hn ih =>
        exact .step ih (fun hc => hw (List.mem_cons_of_mem _ hc)) hs hn

theorem phi_cons_skip (es : List (Nat × Nat)) (d : Direction) (id : Nat)
    (dq walked : List Nat) :
    phi es d dq walked + 1 = phi es d (id :: dq) walked := by
  simp [phi]; omega

theorem phi_cons_stop (es : List (Nat × Nat)) (d : Direction) (id : Nat)
    (dq walked : List Nat) :
    phi es d dq (id :: walked) + 1 ≤ phi es d (id :: dq) walked := by
  have hf := filter_imp_length_le
      (fun e => decide (dirFrom d e ∉ (id :: walked)))
      (fun e => decide (dirFrom d e ∉ walked))
      (by
        intro a ha
        simp only [decide_eq_true_eq, List.mem_cons, not_or] at ha ⊢
        exact ha.2) es
  simp only [phi, List.length_cons]
  omega

theorem phi_cons_visit (es : List (Nat × Nat)) (d : Direction) (id : Nat)
    (dq walked : List Nat) (h : id ∉ walked) :
    phi es d (dq ++ nbrs es d id) (id :: walked) + 1 = phi es d (id :: dq) walked := by
  have := phi_filter_cons es d id walked h
  simp only [phi, List.length_append, List.length_cons]
  omega

/-- The walk characterization: with enough fuel, a node is yielded exactly
when it is available, not stopped and not yet walked. -/
theorem walkAux_spec (es : List (Nat × Nat)) (d : Direction) (stop : Nat → Bool) :
    ∀ (fuel : Nat) (dq walked : List Nat), phi es d dq walked < fuel →
      ∀ v, v ∈ walkAux es d stop fuel dq walked ↔
        (Avail es d stop walked dq v ∧ stop v = false ∧ v ∉ walked) := by
  intro fuel
  induction fuel with
  | zero => intro dq walked h; omega
  | succ fuel ih =>
    intro dq walked hphi v
    match dq with
    | [] =>
      simp only [walkAux, List.not_mem_nil, false_iff]
      rintro ⟨ha, -, -⟩
      exact avail_nil ha
    | id :: dq =>
      by_cases hw : id ∈ walked
      · rw [walkAux, if_pos hw]
        have hlt : phi es d dq walked < fuel := by
          have := phi_cons_skip es d id dq walked; omega
        rw [ih dq walked hlt v, avail_cons_walked hw]
        constructor
        · rintro ⟨ha, hs, hnw⟩; exact ⟨Or.inr ha, hs, hnw⟩
        · rintro ⟨ha | ha, hs, hnw⟩
          · exact absurd (ha ▸ hw) hnw
          · exact ⟨ha, hs, hnw⟩
      · by_cases hs : stop id = true
        · rw [walkAux, if_neg hw, if_pos hs]
          have hlt : phi es d dq (id :: walked) < fuel := by
            have := phi_cons_stop es d id dq walked; omega
          rw [ih dq (id :: walked) hlt v, avail_cons_stopped hs]
          constructor
          · rintro ⟨ha, hsv, hnw⟩
            refine ⟨Or.inr ha, hsv, fun hc => hnw (List.mem_cons_of_mem _ hc)⟩
          · rintro ⟨ha | ha, hsv, hnw⟩
            · rw [ha] at hsv; rw [hsv] at hs; exact absurd hs (by simp)
            · refine ⟨ha, hsv, ?_⟩
              intro hc
              rcases List.mem_cons.mp hc with rfl | hc
              · rw [hs] at hsv; exact absurd hsv (by simp)
              · exact hnw hc
        · simp only [Bool.not_eq_true] at hs
          rw [walkAux, if_neg hw, if_neg (by simp [hs])]
          have hlt : phi es d (dq ++ nbrs es d id) (id :: walked) < fuel := by
            have := phi_cons_visit es d id dq walked hw; omega
          rw [List.mem_cons, ih _ (id :: walked) hlt v]
          constructor
          · rintro (rfl | ⟨ha, hsv, hnw⟩)
            · exact ⟨.base (List.mem_cons_self _ _), hs, hw⟩
            · exact ⟨(avail_cons_visit hw hs).mpr (Or.inr ha), hsv,
                fun hc => hnw (List.mem_cons_of_mem _ hc)⟩
          · rintro ⟨ha, hsv, hnw⟩
            rcases (avail_cons_visit hw hs).mp ha with rfl | ha
            · exact Or.inl rfl
            · by_cases hv : v = id
              · exact Or.inl hv
              · exact Or.inr ⟨ha, hsv, by simp [List.mem_cons, hv, hnw]⟩

/-- A walk yields a node at most once and never yields an already-walked node. -/
theorem walkAux_nodup (es : List (Nat × Nat)) (d : Direction) (stop : Nat → Bool) :
    ∀ (fuel : Nat) (dq walked : List Nat),
      (walkAux es d stop fuel dq walked).Nodup ∧
        ∀ v ∈ walkAux es d stop fuel dq walked, v ∉ walked := by
  intro fuel
  induction fuel with
  | zero => intro dq walked; simp [walkAux]
  | succ fuel ih =>
    intro dq walked
    match dq with
    | [] => simp [walkAux]
    | id :: dq =>
      by_cases hw : id ∈ walked
      · rw [walkAux, if_pos hw]; exact ih dq walked
      · by_cases hs : stop id = true
        · rw [walkAux, if_neg hw, if_pos hs]
          obtain ⟨h1, h2⟩ := ih dq (id :: walked)
          exact ⟨h1, fun v hv hc => h2 v hv (List.mem_cons_of_mem _ hc)⟩
        · simp only [Bool.not_eq_true] at hs
          rw [walkAux, if_neg hw, if_neg (by simp [hs])]
          obtain ⟨h1, h2⟩ := ih (dq ++ nbrs es d id) (id :: walked)
          refine ⟨List.nodup_cons.mpr ⟨fun hc => ?_, h1⟩, ?_⟩
          · exact h2 id hc (List.mem_cons_self _ _)
          · intro v hv
            rcases List.mem_cons.mp hv with rfl | hv
            · exact hw
            · exact fun hc => h2 v hv (List.mem_cons_of_mem _ hc)

/-! ### Reachability along edges, and the walk as a decision procedure -/

/-- One step along an edge in the given direction. -/
def stepRel (es : List (Nat × Nat)) (d : Direction) (u v : Nat) : Prop :=
  v ∈ nbrs es d u

/-- Reachability from one of the roots, stepping only out of un-stopped nodes. -/
def ReachWith (es : List (Nat × Nat)) (d : Direction) (stop : Nat → Bool)
    (roots : List Nat) (v : Nat) : Prop :=
  ∃ r ∈ roots, Relation.ReflTransGen
    (fun a b => stop a = false ∧ stepRel es d a b) r v

theorem avail_iff_reachWith (es : List (Nat × Nat)) (d : Direction)
    (stop : Nat → Bool) (roots : List Nat) (v : Nat) :
    Avail es d stop [] roots v ↔ ReachWith es d stop roots v := by
  constructor
  · intro h
    induction h with
    | base hv => exact ⟨_, hv, Relation.ReflTransGen.refl⟩
    | step _ hw hs hn ih =>
      obtain ⟨r, hr, hpath⟩ := ih
      exact ⟨r, hr, hpath.tail ⟨hs, hn⟩⟩
  · rintro ⟨r, hr, hpath⟩
    induction hpath with
    | refl => exact .base hr
    | tail _ hstep ih => exact .step ih (List.not_mem_nil _) hstep.1 hstep.2

theorem phi_init_lt (g : InnerGraph N) (d : Direction) (roots : List Nat) :
    phi g.edges d roots [] < roots.length + g.edges.length + 1 := by
  have : (g.edges.filter (fun e => dirFrom d e ∉ ([] : List Nat))).length
      ≤ g.edges.length := List.length_filter_le _ _
  simp only [phi]
  omega

/-- `InnerGraph::walk` yields exactly the nodes reachable from the roots
through un-stopped nodes, and that are themselves un-stopped. -/
theorem walkList_mem (g : InnerGraph N) (d : Direction) (stop : Nat → Bool)
    (roots : List Nat) (v : Nat) :
    v ∈ walkList g d stop roots ↔
      ReachWith g.edges d stop roots v ∧ stop v = false := by
  rw [walkList, walkAux_spec g.edges d stop _ roots [] (phi_init_lt g d roots) v,
    avail_iff_reachWith]
  simp

/-- A walk never yields the same node twice. -/
theorem walkList_nodup (g : InnerGraph N) (d : Direction) (stop : Nat → Bool)
    (roots : List Nat) : (walkList g d stop roots).Nodup :=
  (walkAux_nodup g.edges d stop _ roots []).1

theorem stepRel_outgoing (es : List (Nat × Nat)) (u v : Nat) :
    stepRel es .outgoing u v ↔ (u, v) ∈ es := by
  simp only [stepRel, nbrs, List.mem_map, List.mem_filter, decide_eq_true_eq]
  constructor
  · rintro ⟨⟨a, b⟩, ⟨he, hf⟩, ht⟩
    simp only [dirFrom] at hf
    simp only [dirTo] at ht
    subst hf; subst ht; exact he
  · intro h
    exact ⟨(u, v), ⟨h, rfl⟩, rfl⟩

theorem stepRel_incoming (es : List (Nat × Nat)) (u v : Nat) :
    stepRel es .incoming u v ↔ (v, u) ∈ es := by
  simp only [stepRel, nbrs, List.mem_map, List.mem_filter, decide_eq_true_eq]
  constructor
  · rintro ⟨⟨a, b⟩, ⟨he, hf⟩, ht⟩
    simp only [dirFrom] at hf
    simp only [dirTo] at ht
    subst hf; subst ht; exact he
  · intro h
    exact ⟨(v, u), ⟨h, rfl⟩, rfl⟩

theorem rtg_iff_of_iff {r s : Nat → Nat → Prop} (h : ∀ a b, r a b ↔ s a b)
    (a b : Nat) : Relation.ReflTransGen r a b ↔ Relation.ReflTransGen s a b :=
  ⟨Relation.ReflTransGen.mono (fun x y hxy => (h x y).mp hxy),
   Relation.ReflTransGen.mono (fun x y hxy => (h x y).mpr hxy)⟩

theorem rtg_reverse {r : Nat → Nat → Prop} (a b : Nat)
    (h : Relation.ReflTransGen r a b) :
    Relation.ReflTransGen (fun x y => r y x) b a := by
  induction h with
  | refl => exact Relation.ReflTransGen.refl
  | tail _ hstep ih => exact Relation.ReflTransGen.head hstep ih

/-- `InnerGraph::detect_cycle`: search for an existing `dst → src` path, either
forward from `dst` or backward from `src`, from whichever side has the smaller
initial frontier. -/
def detectCycle (g : InnerGraph N) (src dst : Nat) : Bool :=
  let outFromDst := (nbrs g.edges .outgoing dst).length
  let inToSrc := (nbrs g.edges .incoming src).length
  if outFromDst < inToSrc then
    decide (src ∈ walkList g .outgoing (fun _ => false) [dst])
  else
    decide (dst ∈ walkList g .incoming (fun _ => false) [src])

/-- Either search direction decides exactly the existence of a `dst → src`
path along the graph's edges. -/
theorem detectCycle_iff (g : InnerGraph N) (src dst : Nat) :
    detectCycle g src dst = true ↔
      Relation.ReflTransGen (fun a b => (a, b) ∈ g.edges) dst src := by
  unfold detectCycle
  dsimp only
  split
  · rw [decide_eq_true_eq, walkList_mem]
    simp only [List.mem_singleton, and_true,
      ReachWith, exists_eq_left]
    exact rtg_iff_of_iff
      (fun a b => by simp [stepRel_outgoing]) dst src
  · rw [decide_eq_true_eq, walkList_mem]
    simp only [List.mem_singleton, and_true,
      ReachWith, exists_eq_left]
    constructor
    · intro h
      have := rtg_reverse _ _ h
      exact (rtg_iff_of_iff (fun a b => by simp [stepRel_incoming]) dst src).mp this
    · intro h
      have h' := (rtg_iff_of_iff
        (fun a b => (stepRel_incoming g.edges b a).symm) dst src).mp h
      have := rtg_reverse _ _ h'
      exact (rtg_iff_of_iff (fun a b => by simp) src dst).mp this

/-! ### `petgraph::algo::bellman_ford` at uniform unit weights

`InnerGraph::shortest_path` runs petgraph's Bellman-Ford over the dependency
graph, whose edges all carry weight 1.0, and then follows the predecessor map
back from the destination.  petgraph is an external crate; its algorithm is
modelled here: distances start at 0 for the source and infinity (`none`)
elsewhere, and `node_count - 1` rounds of edge relaxations (in edge order)
update distance and predecessor together on strict improvement.  The early
exit petgraph performs when a round changes nothing does not alter the
result. -/

/-- Bellman-Ford state: distance and predecessor maps. -/
structure BFS where
  dist : Nat → Option Nat
  pred : Nat → Option Nat

/-- Initial state: the source at distance 0, everything else unreached. -/
def bfInit (src : Nat) : BFS :=
  ⟨fun v => if v = src then some 0 else none, fun _ => none⟩

/-- Relax a single (unit-weight) edge. -/
def relax (s : BFS) (e : Nat × Nat) : BFS :=
  match s.dist e.1 with
  | none => s
  | some du =>
    match s.dist e.2 with
    | none =>
      ⟨fun v => if v = e.2 then some (du + 1) else s.dist v,
       fun v => if v = e.2 then some e.1 else s.pred v⟩
    | some dv =>
      if du + 1 < dv then
        ⟨fun v => if v = e.2 then some (du + 1) else s.dist v,
         fun v => if v = e.2 then some e.1 else s.pred v⟩
      else s

/-- One relaxation round over every edge, in edge order. -/
def relaxRound (es : List (Nat × Nat)) (s : BFS) : BFS := es.foldl relax s

/-- The full Bellman-Ford run: `n - 1` relaxation rounds. -/
def bfRun (n : Nat) (es : List (Nat × Nat)) (src : Nat) : BFS :=
  (relaxRound es)^[n - 1] (bfInit src)

/-- The invariant tying predecessors to edges and strictly decreasing
distances. -/
def BFInv (es : List (Nat × Nat)) (src : Nat) (s : BFS) : Prop :=
  s.dist src = some 0 ∧
  (∀ v u, s.pred v = some u → (u, v) ∈ es ∧
    ∃ dv du, s.dist v = some dv ∧ s.dist u = some du ∧ du < dv) ∧
  (∀ v dv, s.dist v = some dv → v ≠ src → ∃ u, s.pred v = some u)

theorem bfInv_init (es : List (Nat × Nat)) (src : Nat) :
    BFInv es src (bfInit src) := by
  refine ⟨by simp [bfInit], ?_, ?_⟩
  · intro v u h; simp [bfInit] at h
  · intro v dv h hne
    simp only [bfInit] at h
    rw [if_neg hne] at h
    exact absurd h (by simp)

/-- The relaxed state, after an improving edge. -/
def bfUpd (s : BFS) (e : Nat × Nat) (du : Nat) : BFS :=
  ⟨fun v => if v = e.2 then some (du + 1) else s.dist v,
   fun v => if v = e.2 then some e.1 else s.pred v⟩

theorem relax_eq_skip1 {s : BFS} {e : Nat × Nat} (h : s.dist e.1 = none) :
    relax s e = s := by
  unfold relax; rw [h]

theorem relax_eq_upd_none {s : BFS} {e : Nat × Nat} {du : Nat}
    (h1 : s.dist e.1 = some du) (h2 : s.dist e.2 = none) :
    relax s e = bfUpd s e du := by
  unfold relax bfUpd; rw [h1, h2]

theorem relax_eq_upd_lt {s : BFS} {e : Nat × Nat} {du dv : Nat}
    (h1 : s.dist e.1 = some du) (h2 : s.dist e.2 = some dv)
    (hlt : du + 1 < dv) : relax s e = bfUpd s e du := by
  unfold relax bfUpd; rw [h1, h2]; simp only [if_pos hlt]

theorem relax_eq_skip2 {s : BFS} {e : Nat × Nat} {du dv : Nat}
    (h1 : s.dist e.1 = some du) (h2 : s.dist e.2 = some dv)
    (hlt : ¬ du + 1 < dv) : relax s e = s := by
  unfold relax; rw [h1, h2]; simp only [if_neg hlt]

theorem bfInv_upd {es : List (Nat × Nat)} {src : Nat} {s : BFS}
    (hinv : BFInv es src s) {e : Nat × Nat} (he : e ∈ es) {du : Nat}
    (hdu : s.dist e.1 = some du) (h12 : e.1 ≠ e.2) (hsrc2 : e.2 ≠ src)
    (hless : ∀ dv, s.dist e.2 = some dv → du + 1 < dv) :
    BFInv es src (bfUpd s e du) := by
  obtain ⟨h0, h2, h3⟩ := hinv
  refine ⟨?_, ?_, ?_⟩
  · simp only [bfUpd]
    rw [if_neg (Ne.symm hsrc2)]
    exact h0
  · intro v u h
    simp only [bfUpd] at h ⊢
    by_cases hv : v = e.2
    · subst hv
      rw [if_pos rfl] at h
      have hu := Option.some.inj h
      subst hu
      refine ⟨by rw [Prod.mk.eta]; exact he, du + 1, du,
        by rw [if_pos rfl], ?_, by omega⟩
      rw [if_neg h12]
      exact hdu
    · rw [if_neg hv] at h
      obtain ⟨hmem, dv', du', hv', hu', hlt'⟩ := h2 v u h
      by_cases hu2 : u = e.2
      · subst hu2
        have hdve : ∃ dv, s.dist e.2 = some dv := ⟨du', hu'⟩
        obtain ⟨dv, hdv⟩ := hdve
        rw [hdv] at hu'
        have hdd := Option.some.inj hu'
        have := hless dv hdv
        refine ⟨hmem, dv', du + 1, ?_, by rw [if_pos rfl], by omega⟩
        rw [if_neg hv]
        exact hv'
      · refine ⟨hmem, dv', du', ?_, ?_, hlt'⟩
        · rw [if_neg hv]; exact hv'
        · rw [if_neg hu2]; exact hu'
  · intro v dv h hne
    simp only [bfUpd] at h ⊢
    by_cases hv : v = e.2
    · subst hv; exact ⟨e.1, by rw [if_pos rfl]⟩
    · rw [if_neg hv] at h
      obtain ⟨u, hu⟩ := h3 v dv h hne
      exact ⟨u, by rw [if_neg hv]; exact hu⟩

theorem bfInv_relax {es : List (Nat × Nat)} {src : Nat} {s : BFS}
    (hinv : BFInv es src s) {e : Nat × Nat} (he : e ∈ es) :
    BFInv es src (relax s e) := by
  rcases hdu : s.dist e.1 with _ | du
  · rw [relax_eq_skip1 hdu]; exact hinv
  · rcases hdv : s.dist e.2 with _ | dv
    · have h12 : e.1 ≠ e.2 := by
        intro heq; rw [heq, hdv] at hdu; exact absurd hdu (by simp)
      have hsrc2 : e.2 ≠ src := by
        intro heq; rw [heq, hinv.1] at hdv; exact absurd hdv (by simp)
      rw [relax_eq_upd_none hdu hdv]
      exact bfInv_upd hinv he hdu h12 hsrc2
        (fun dv h => by rw [hdv] at h; exact absurd h (by simp))
    · by_cases hlt : du + 1 < dv
      · have h12 : e.1 ≠ e.2 := by
          intro heq; rw [heq, hdv] at hdu
          have := Option.some.inj hdu
          omega
        have hsrc2 : e.2 ≠ src := by
          intro heq; rw [heq, hinv.1] at hdv
          have := Option.some.inj hdv
          omega
        rw [relax_eq_upd_lt hdu hdv hlt]
        exact bfInv_upd hinv he hdu h12 hsrc2
          (fun dv' h => by
            rw [hdv] at h
            have := Option.some.inj h
            omega)
      · rw [relax_eq_skip2 hdu hdv hlt]
        exact hinv

theorem bfInv_foldl {es : List (Nat × Nat)} {src : Nat} :
    ∀ (l : List (Nat × Nat)) (s : BFS), (∀ e ∈ l, e ∈ es) →
      BFInv es src s → BFInv es src (l.foldl relax s) := by
  intro l
  induction l with
  | nil => intro s _ h; exact h
  | cons e l ih =>
    intro s hsub h
    exact ih _ (fun x hx => hsub x (List.mem_cons_of_mem _ hx))
      (bfInv_relax h (hsub e (List.mem_cons_self _ _)))

theorem bfInv_iter (es : List (Nat × Nat)) (src : Nat) (k : Nat) :
    BFInv es src ((relaxRound es)^[k] (bfInit src)) := by
  induction k with
  | zero => exact bfInv_init es src
  | succ k ih =>
    rw [Function.iterate_succ_apply']
    exact bfInv_foldl es _ (fun e he => he) ih

theorem bfInv_run (n : Nat) (es : List (Nat × Nat)) (src : Nat) :
    BFInv es src (bfRun n es src) := bfInv_iter es src (n - 1)

/-- Relaxation never increases a distance. -/
theorem relax_dist_le (s : BFS) (e : Nat × Nat) (v d : Nat)
    (h : s.dist v = some d) : ∃ d' ≤ d, (relax s e).dist v = some d' := by
  rcases hdu : s.dist e.1 with _ | du
  · rw [relax_eq_skip1 hdu]; exact ⟨d, le_refl d, h⟩
  · rcases hdv : s.dist e.2 with _ | dv
    · rw [relax_eq_upd_none hdu hdv]
      by_cases hv : v = e.2
      · rw [hv] at h; rw [h] at hdv; cases hdv
      · exact ⟨d, le_refl d, by simp only [bfUpd]; rw [if_neg hv]; exact h⟩
    · by_cases hlt : du + 1 < dv
      · rw [relax_eq_upd_lt hdu hdv hlt]
        by_cases hv : v = e.2
        · subst hv
          rw [h] at hdv
          have := Option.some.inj hdv
          refine ⟨du + 1, by omega, ?_⟩
          simp [bfUpd]
        · exact ⟨d, le_refl d, by simp only [bfUpd]; rw [if_neg hv]; exact h⟩
      · rw [relax_eq_skip2 hdu hdv hlt]; exact ⟨d, le_refl d, h⟩

/-- `below s v k`: node `v` has a finite distance at most `k`. -/
def below (s : BFS) (v k : Nat) : Prop := ∃ d, s.dist v = some d ∧ d ≤ k

theorem below_relax {s : BFS} {e : Nat × Nat} {v k : Nat} (h : below s v k) :
    below (relax s e) v k := by
  obtain ⟨d, hd, hk⟩ := h
  obtain ⟨d', hd', hsome⟩ := relax_dist_le s e v d hd
  exact ⟨d', hsome, by omega⟩

theorem below_foldl {v k : Nat} :
    ∀ (l : List (Nat × Nat)) (s : BFS), below s v k → below (l.foldl relax s) v k := by
  intro l
  induction l with
  | nil => intro s h; exact h
  | cons e l ih => intro s h; exact ih _ (below_relax h)

theorem below_iter_mono {es : List (Nat × Nat)} {v k : Nat} (m : Nat)
    {s : BFS} (h : below s v k) : below ((relaxRound es)^[m] s) v k := by
  induction m with
  | zero => exact h
  | succ m ih =>
    rw [Function.iterate_succ_apply']
    exact below_foldl es _ ih

/-- If `(u, v)` is an edge and `u` is below `k`, then after one more round `v`
is below `k + 1`. -/
theorem below_round_step {es : List (Nat × Nat)} {s : BFS} {u v k : Nat}
    (he : (u, v) ∈ es) (h : below s u k) : below (relaxRound es s) v (k + 1) := by
  obtain ⟨l1, l2, rfl⟩ := List.append_of_mem he
  rw [relaxRound, List.foldl_append]
  simp only [List.foldl_cons]
  apply below_foldl
  have h1 : below (l1.foldl relax s) u k := below_foldl l1 s h
  obtain ⟨du, hdu, hle⟩ := h1
  rcases hdv : (l1.foldl relax s).dist v with _ | dv
  · rw [relax_eq_upd_none hdu hdv]
    exact ⟨du + 1, by simp [bfUpd], by omega⟩
  · by_cases hlt : du + 1 < dv
    · rw [relax_eq_upd_lt hdu hdv hlt]
      exact ⟨du + 1, by simp [bfUpd], by omega⟩
    · rw [relax_eq_skip2 hdu hdv hlt]
      exact ⟨dv, hdv, by omega⟩

/-- Every reachable node is the end of a duplicate-free edge path whose nodes
are the start or edge targets. -/
theorem rtg_exists_nodup_path {r : Nat → Nat → Prop} {a b : Nat}
    (h : Relation.ReflTransGen r a b) :
    ∃ p : List Nat, List.Chain' r p ∧ p.head? = some a ∧ p.getLast? = some b ∧
      p.Nodup ∧ ∀ x ∈ p, x = a ∨ ∃ u, r u x := by
  induction h with
  | refl => exact ⟨[a], by simp, rfl, rfl, by simp, by simp⟩
  | @tail u v h1 h2 ih =>
    obtain ⟨p, hc, hh, hl, hnd, hmem⟩ := ih
    by_cases hv : v ∈ p
    · obtain ⟨l1, l2, rfl⟩ := List.append_of_mem hv
      have hsub : (l1 ++ [v]).Sublist (l1 ++ v :: l2) :=
        List.Sublist.append_left (List.Sublist.cons₂ v (List.nil_sublist l2)) l1
      refine ⟨l1 ++ [v], ?_, ?_, ?_, hnd.sublist hsub, ?_⟩
      · have hc' : List.Chain' r ((l1 ++ [v]) ++ l2) := by simpa using hc
        exact (List.chain'_append.mp hc').1
      · cases l1 with
        | nil => simpa using hh
        | cons c t => simpa using hh
      · simp
      · intro x hx
        exact hmem x (hsub.mem hx)
    · refine ⟨p ++ [v], ?_, ?_, ?_, ?_, ?_⟩
      · rw [List.chain'_append]
        refine ⟨hc, by simp, ?_⟩
        intro x hx y hy
        simp only [List.head?_cons, Option.mem_def, Option.some.injEq] at hy
        rw [hl] at hx
        simp only [Option.mem_def, Option.some.injEq] at hx
        rw [← hy, ← hx]
        exact h2
      · cases p with
        | nil => simp at hh
        | cons c t => simpa using hh
      · simp
      · simp [List.nodup_append, hnd, hv]
      · intro x hx
        rcases List.mem_append.mp hx with hx | hx
        · exact hmem x hx
        · simp only [List.mem_singleton] at hx
          subst hx
          exact Or.inr ⟨u, h2⟩

theorem nodup_path_length_le {p : List Nat} (hnd : p.Nodup) {n : Nat}
    (hlt : ∀ x ∈ p, x < n) : p.length ≤ n := by
  have h1 : p.toFinset.card = p.length := List.toFinset_card_of_nodup hnd
  have h2 : p.toFinset ⊆ Finset.range n := by
    intro x hx
    rw [List.mem_toFinset] at hx
    rw [Finset.mem_range]
    exact hlt x hx
  have h3 := Finset.card_le_card h2
  rw [Finset.card_range, h1] at h3
  exact h3

/-- Bellman-Ford round completeness: after `k` rounds every node at the end
of a path with at most `k` edges has distance at most `k`. -/
theorem below_of_path (es : List (Nat × Nat)) (src : Nat) :
    ∀ p : List Nat, List.Chain' (fun a b => (a, b) ∈ es) p →
      p.head? = some src → ∀ v, p.getLast? = some v → ∀ k, p.length ≤ k + 1 →
        below ((relaxRound es)^[k] (bfInit src)) v k := by
  intro p
  induction p using List.reverseRecOn with
  | nil => intro _ hh; simp at hh
  | append_singleton q v' ih =>
    intro hc hh v hl k hk
    rw [List.getLast?_concat] at hl
    have hvv := Option.some.inj hl
    rw [← hvv]
    cases q with
    | nil =>
      simp only [List.nil_append, List.head?_cons, Option.some.injEq] at hh
      rw [hh]
      exact ⟨0, (bfInv_iter es src k).1, by omega⟩
    | cons c t =>
      have hu : (c :: t).getLast? = some ((c :: t).getLast (by simp)) :=
        List.getLast?_eq_getLast _ (by simp)
      have hchain := List.chain'_append.mp hc
      obtain ⟨hcq, -, hlast⟩ := hchain
      have hedge : ((c :: t).getLast (by simp), v') ∈ es :=
        hlast _ hu v' rfl
      have hhq : (c :: t).head? = some src := by simpa using hh
      cases k with
      | zero =>
        simp only [List.length_append, List.length_cons, List.length_singleton] at hk
        omega
      | succ k' =>
        have ihb := ih hcq hhq _ hu k' (by
          simp only [List.length_append, List.length_cons, List.length_singleton] at hk ⊢
          omega)
        rw [Function.iterate_succ_apply']
        exact below_round_step hedge ihb

/-! ### Distances are bounded, giving fuel for the predecessor walk-back -/

def distAllLe (s : BFS) (B : Nat) : Prop := ∀ v d, s.dist v = some d → d ≤ B

theorem distAllLe_relax {s : BFS} {B : Nat} (h : distAllLe s B) (e : Nat × Nat) :
    distAllLe (relax s e) (B + 1) := by
  intro v d hd
  rcases hdu : s.dist e.1 with _ | du
  · rw [relax_eq_skip1 hdu] at hd; exact le_trans (h v d hd) (by omega)
  · rcases hdv : s.dist e.2 with _ | dv
    · rw [relax_eq_upd_none hdu hdv] at hd
      simp only [bfUpd] at hd
      by_cases hv : v = e.2
      · rw [if_pos hv] at hd
        have := Option.some.inj hd
        have := h _ _ hdu
        omega
      · rw [if_neg hv] at hd; exact le_trans (h v d hd) (by omega)
    · by_cases hlt : du + 1 < dv
      · rw [relax_eq_upd_lt hdu hdv hlt] at hd
        simp only [bfUpd] at hd
        by_cases hv : v = e.2
        · rw [if_pos hv] at hd
          have := Option.some.inj hd
          have := h _ _ hdu
          omega
        · rw [if_neg hv] at hd; exact le_trans (h v d hd) (by omega)
      · rw [relax_eq_skip2 hdu hdv hlt] at hd; exact le_trans (h v d hd) (by omega)

theorem distAllLe_foldl :
    ∀ (l : List (Nat × Nat)) (s : BFS) (B : Nat), distAllLe s B →
      distAllLe (l.foldl relax s) (B + l.length) := by
  intro l
  induction l with
  | nil => intro s B h; simpa using h
  | cons e l ih =>
    intro s B h
    have := ih (relax s e) (B + 1) (distAllLe_relax h e)
    intro v d hd
    have := this v d hd
    simp only [List.length_cons]
    omega

theorem distAllLe_iter (es : List (Nat × Nat)) (src : Nat) :
    ∀ k, distAllLe ((relaxRound es)^[k] (bfInit src)) (k * es.length) := by
  intro k
  induction k with
  | zero =>
    intro v d hd
    simp only [Function.iterate_zero_apply, bfInit] at hd
    by_cases hv : v = src
    · rw [if_pos hv] at hd
      have := Option.some.inj hd
      omega
    · rw [if_neg hv] at hd; cases hd
  | succ k ih =>
    rw [Function.iterate_succ_apply']
    intro v d hd
    have := distAllLe_foldl es _ (k * es.length) ih v d hd
    have hm : k * es.length + es.length = (k + 1) * es.length := by ring
    omega

/-! ### The predecessor walk-back of `InnerGraph::shortest_path` -/

/-- The walk from the destination back along predecessors, as in
`InnerGraph::shortest_path`.  The fuel only makes the recursion structural:
predecessor distances strictly decrease, so any fuel above the distance of the
start node suffices (`walkBack_progress`). -/
def walkBack (pr : Nat → Option Nat) (src : Nat) :
    Nat → Nat → List Nat → Option (List Nat)
  | 0, _, _ => none
  | fuel + 1, next, path =>
    match pr next with
    | none => none
    | some current =>
      if current = src then some (path ++ [current])
      else walkBack pr src fuel current (path ++ [current])

theorem walkBack_succ (pr : Nat → Option Nat) (src fuel next : Nat)
    (path : List Nat) :
    walkBack pr src (fuel + 1) next path =
      match pr next with
      | none => none
      | some current =>
        if current = src then some (path ++ [current])
        else walkBack pr src fuel current (path ++ [current]) := rfl

/-- Under the invariant, the walk-back from any finitely-distanced node
reaches the source and returns the accumulated path, which follows graph
edges backwards. -/
theorem walkBack_progress {es : List (Nat × Nat)} {src : Nat} {s : BFS}
    (hinv : BFInv es src s) :
    ∀ dv v, s.dist v = some dv → v ≠ src → ∀ fuel, dv < fuel → ∀ acc,
      ∃ suf, walkBack s.pred src fuel v acc = some (acc ++ suf) ∧
        suf ≠ [] ∧ (v :: suf).getLast? = some src ∧
        List.Chain (fun a b => (b, a) ∈ es) v suf := by
  intro dv
  induction dv using Nat.strong_induction_on with
  | _ dv ih =>
    intro v hv hne fuel hfuel acc
    obtain ⟨u, hu⟩ := hinv.2.2 v dv hv hne
    obtain ⟨hedge, dv', du, hv', hu', hlt⟩ := hinv.2.1 v u hu
    rw [hv] at hv'
    have hdd := Option.some.inj hv'
    cases fuel with
    | zero => omega
    | succ f =>
      rw [walkBack_succ]
      simp only [hu]
      by_cases hus : u = src
      · rw [if_pos hus]
        refine ⟨[u], rfl, by simp, by simp [hus], ?_⟩
        exact List.Chain.cons hedge List.Chain.nil
      · rw [if_neg hus]
        obtain ⟨suf, hres, hsne, hlast, hchain⟩ :=
          ih du (by omega) u hu' hus f (by omega) (acc ++ [u])
        refine ⟨u :: suf, ?_, by simp, ?_, ?_⟩
        · rw [hres, List.append_assoc]
          rfl
        · rw [List.getLast?_cons_cons]
          exact hlast
        · exact List.Chain.cons hedge hchain

/-- Fuel bound for the walk-back inside `shortest_path`. -/
def spFuel (n : Nat) (es : List (Nat × Nat)) : Nat := n * es.length + 2

/-- `InnerGraph::shortest_path` (modelled through `bfRun`): run Bellman-Ford
from `bfsrc`, then follow predecessors from `target`, accumulating
`[target, ...]`; return `none` if the predecessor chain ends before reaching
the source. -/
def shortestPathIds (n : Nat) (es : List (Nat × Nat)) (bfsrc target : Nat) :
    Option (List Nat) :=
  walkBack (bfRun n es bfsrc).pred bfsrc (spFuel n es) target [target]

/-- Completeness of `shortest_path`: when `target` is reachable from `bfsrc`
in a well-formed graph, a backwards edge path `[target, ..., bfsrc]` is
returned. -/
theorem shortestPathIds_of_reach (n : Nat) (es : List (Nat × Nat))
    (bfsrc target : Nat) (hwf : ∀ e ∈ es, e.1 < n ∧ e.2 < n) (hsrc : bfsrc < n)
    (hne : target ≠ bfsrc)
    (hreach : Relation.ReflTransGen (fun a b => (a, b) ∈ es) bfsrc target) :
    ∃ suf, shortestPathIds n es bfsrc target = some (target :: suf) ∧
      suf ≠ [] ∧ (target :: suf).getLast? = some bfsrc ∧
      List.Chain (fun a b => (b, a) ∈ es) target suf := by
  obtain ⟨p, hc, hh, hl, hnd, hmem⟩ := rtg_exists_nodup_path hreach
  have hbound : ∀ x ∈ p, x < n := by
    intro x hx
    rcases hmem x hx with rfl | ⟨u, hu⟩
    · exact hsrc
    · exact (hwf _ hu).2
  have hlen : p.length ≤ n := nodup_path_length_le hnd hbound
  have hplen : 1 ≤ p.length := by
    cases p
    · simp at hh
    · simp
  have hb := below_of_path es bfsrc p hc hh target hl (p.length - 1) (by omega)
  have hb' : below (bfRun n es bfsrc) target (p.length - 1) := by
    unfold bfRun
    have hsplit : n - 1 = (n - p.length) + (p.length - 1) := by omega
    rw [hsplit, Function.iterate_add_apply]
    exact below_iter_mono (n - p.length) hb
  obtain ⟨d, hd, hdk⟩ := hb'
  have hble := distAllLe_iter es bfsrc (n - 1) target d (by rw [bfRun] at hd; exact hd)
  have hfuel : d < spFuel n es := by
    unfold spFuel
    have : (n - 1) * es.length ≤ n * es.length :=
      Nat.mul_le_mul_right _ (by omega)
    omega
  obtain ⟨suf, hres, hsne, hlast, hchain⟩ :=
    walkBack_progress (bfInv_run n es bfsrc) d target hd hne (spFuel n es) hfuel
      [target]
  refine ⟨suf, ?_, hsne, hlast, hchain⟩
  rw [shortestPathIds, hres]
  rfl

/-! ### Inner graph operations -/

instance entryInhabited [Inhabited N] : Inhabited (Entry N) :=
  ⟨⟨default, .notStarted 0⟩⟩

/-- `entry_for_id(id).unwrap()`: ids handed out by the graph are always in
range; the out-of-range panic of the source is mapped to the default entry. -/
def entryAt [Inhabited N] (g : InnerGraph N) (i : Nat) : Entry N :=
  (g.entries.get? i).getD default

/-- `InnerGraph::ensure_entry`: reuse the entry of an already-known node, or
append a fresh `NotStarted` entry and return its id. -/
def ensureEntry [DecidableEq N] (g : InnerGraph N) (n : N) : InnerGraph N × Nat :=
  match g.entries.findIdx? (fun e => e.node = n) with
  | some id => (g, id)
  | none =>
    ({ entries := g.entries ++ [⟨n, .notStarted 0⟩], edges := g.edges,
       draining := g.draining }, g.entries.length)

/-- `InnerGraph::report_cycle`: a self edge reports `[n, n]`; otherwise, if
`detect_cycle` holds, one shortest `dst → src` path is computed, reversed,
`dst` is appended, and the ids are mapped to entry snapshots. -/
def innerReportCycle [Inhabited N] (g : InnerGraph N) (src dst : Nat) :
    Option (List (Entry N)) :=
  if src = dst then (g.entries.get? src).map (fun e => [e, e])
  else if detectCycle g src dst then
    (shortestPathIds g.entries.length g.edges dst src).map
      (fun p => (p.reverse ++ [dst]).map (entryAt g))
  else none

/-- Pointwise entry update, indexed from `i`. -/
def mapWithIndex (f : Nat → α → α) : Nat → List α → List α
  | _, [] => []
  | i, a :: l => f i a :: mapWithIndex f (i + 1) l

theorem mapWithIndex_get? (f : Nat → α → α) :
    ∀ (l : List α) (i k : Nat),
      (mapWithIndex f i l).get? k = (l.get? k).map (f (i + k)) := by
  intro l
  induction l with
  | nil => intro i k; simp [mapWithIndex]
  | cons a l ih =>
    intro i k
    cases k with
    | zero => simp [mapWithIndex]
    | succ k =>
      have heq : i + 1 + k = i + (k + 1) := by omega
      simp only [mapWithIndex, List.get?]
      rw [ih (i + 1) k, heq]

theorem mapWithIndex_length (f : Nat → α → α) :
    ∀ (l : List α) (i : Nat), (mapWithIndex f i l).length = l.length := by
  intro l
  induction l with
  | nil => intro i; rfl
  | cons a l ih => intro i; simp [mapWithIndex, ih]

/-- The invalidation roots: entries whose node matches the predicate and
whose state is started. -/
def rootIdsOf [Inhabited N] (g : InnerGraph N) (prd : N → Bool) : List Nat :=
  (List.range g.entries.length).filter
    (fun i => prd (entryAt g i).node && isStarted (entryAt g i).state)

/-- The transitive dependents of the roots: the walk along incoming edges
from the roots, with the roots themselves filtered out. -/
def transitiveIdsOf [Inhabited N] (g : InnerGraph N) (prd : N → Bool) : List Nat :=
  (walkList g .incoming (fun _ => false) (rootIdsOf g prd)).filter
    (fun i => i ∉ rootIdsOf g prd)

/-- `InnerGraph::invalidate_from_roots`: count roots and transitive
dependents, clear the roots, drop every edge leaving a root, and dirty the
transitive dependents (keeping their edges). -/
def invalidateFromRoots [Inhabited N] (g : InnerGraph N) (prd : N → Bool) :
    InnerGraph N × InvalidationResult :=
  let roots := rootIdsOf g prd
  let transitive := transitiveIdsOf g prd
  let entries' := mapWithIndex (fun i e =>
      if i ∈ roots then { e with state := clearState e.state }
      else if i ∈ transitive then { e with state := dirtyState e.state }
      else e) 0 g.entries
  let edges' := g.edges.filter (fun ed => ed.1 ∉ roots)
  ({ entries := entries', edges := edges', draining := g.draining },
   { cleared := roots.length, dirtied := transitive.length })

/-! ### Graph façade -/

/-- The dirty entries of a cycle path, as node keys (membership below plays
the role of the `HashSet` of `Graph::report_cycle`). -/
def dirtyNodesOf (path : List (Entry N)) : List N :=
  (path.filter (fun e => !isClean e.state)).map (fun e => e.node)

/-- `Graph::report_cycle`: repeatedly cycle-detect; a clean cycle path is
reported at once; a path containing dirty entries causes those dirty nodes to
be invalidated (clearing their edges) and a re-check, up to ten times, after
which the path is reported as-is.  `remaining` counts the invalidations still
allowed (the source counts up to a limit of 10); the third component of the
result is the number of invalidations performed, returned for accounting. -/
def reportCycleLoop [Inhabited N] [DecidableEq N] (src dst : Nat) :
    Nat → InnerGraph N → Nat → Option (List (Entry N)) × InnerGraph N × Nat
  | 0, g, cnt =>
    match innerReportCycle g src dst with
    | none => (none, g, cnt)
    | some p => (some p, g, cnt)
  | r + 1, g, cnt =>
    match innerReportCycle g src dst with
    | none => (none, g, cnt)
    | some p =>
      if dirtyNodesOf p = [] then (some p, g, cnt)
      else
        reportCycleLoop src dst r
          (invalidateFromRoots g (fun n => n ∈ dirtyNodesOf p)).1 (cnt + 1)

/-- `Graph::report_cycle` at its entry point: up to 10 invalidation rounds. -/
def facadeReportCycle [Inhabited N] [DecidableEq N] (src dst : Nat)
    (g : InnerGraph N) : Option (List (Entry N)) × InnerGraph N × Nat :=
  reportCycleLoop src dst 10 g 0

/-- What `Graph::get_inner` decides under the lock: an early error, or the
entry to await together with the retry flag. -/
inductive GetOutcome (N : Type) where
  | err (e : NError) : GetOutcome N
  | await (retry : Bool) (id : Nat) : GetOutcome N
deriving DecidableEq, Repr

/-- The locked prefix of `Graph::get_inner`: fail fast when draining; ensure
the destination entry; with a `src` entry, resolve cycles (failing with
`cyclic` over the path's display strings), else add the edge and decide the
retry flag from the source node's cacheability; without a `src`, always
retry. -/
def getInnerSync [Inhabited N] [DecidableEq N] (display : N → String)
    (cach : N → Bool) (g : InnerGraph N) (src : Option Nat) (dstNode : N) :
    GetOutcome N × InnerGraph N :=
  if g.draining then (.err .invalidated, g)
  else
    let gd := ensureEntry g dstNode
    match src with
    | some srcId =>
      match facadeReportCycle srcId gd.2 gd.1 with
      | (some path, g2, _) =>
        (.err (.cyclic (path.map (fun e => display e.node))), g2)
      | (none, g2, _) =>
        (.await (!cach (entryAt g2 srcId).node) gd.2,
         { entries := g2.entries, edges := g2.edges ++ [(srcId, gd.2)],
           draining := g2.draining })
    | none => (.await true gd.2, gd.1)

/-- `Graph::mark_draining`: error when the flag already has the requested
value, else flip it. -/
def markDraining (g : InnerGraph N) (b : Bool) : Except Unit (InnerGraph N) :=
  if g.draining = b then .error ()
  else .ok { entries := g.entries, edges := g.edges, draining := b }

/-- `Graph::clear_deps`: when the entry exists and its run token differs,
leave the graph alone; otherwise drop every outgoing edge of the entry. -/
def clearDeps (g : InnerGraph N) (id rt : Nat) : InnerGraph N :=
  match g.entries.get? id with
  | some e =>
    if runTokenOf e.state ≠ rt then g
    else
      { entries := g.entries, edges := g.edges.filter (fun ed => ed.1 ≠ id),
        draining := g.draining }
  | none =>
    { entries := g.entries, edges := g.edges.filter (fun ed => ed.1 ≠ id),
      draining := g.draining }

/-! ### The retry loop of `Graph::get_inner`

`res i` stands for the outcome of the `i`-th await of the entry's value (the
value an attempt observes is whatever the entry holds at that moment; the
loop itself only matches on the result).  The counter is decremented before
each attempt and the loop breaks with `exhausted` when it reaches zero. -/

def retryFrom {α : Type} (res : Nat → Except NError α) :
    Nat → Nat → Except NError α
  | 0, _ => .error .exhausted
  | 1, _ => .error .exhausted
  | c + 2, i =>
    match res i with
    | .ok v => .ok v
    | .error e => if e = .invalidated then retryFrom res (c + 1) (i + 1) else .error e

/-- The retry-eligible path of `get_inner`: `counter` starts at 8. -/
def retryGet {α : Type} (res : Nat → Except NError α) : Except NError α :=
  retryFrom res 8 0

/-! ### `InnerGraph::critical_path`

The weighted graph handed to Bellman-Ford: every dependency edge weighted by
the negated duration of its target, plus a synthetic source (index `n`)
with an edge to every root.  Weights are exact integer nanosecond counts
(`none` is the `INFINITY` of unreached nodes); `MAX` durations arise from
the `-NEG_INFINITY as u64` saturating cast the source performs on unreached
nodes. -/

structure BFW where
  dist : Nat → Option Int
  pred : Nat → Option Nat

def bfwInit (src : Nat) : BFW :=
  ⟨fun v => if v = src then some 0 else none, fun _ => none⟩

def relaxW (s : BFW) (e : Nat × Nat × Int) : BFW :=
  match s.dist e.1 with
  | none => s
  | some du =>
    match s.dist e.2.1 with
    | none =>
      ⟨fun v => if v = e.2.1 then some (du + e.2.2) else s.dist v,
       fun v => if v = e.2.1 then some e.1 else s.pred v⟩
    | some dv =>
      if du + e.2.2 < dv then
        ⟨fun v => if v = e.2.1 then some (du + e.2.2) else s.dist v,
         fun v => if v = e.2.1 then some e.1 else s.pred v⟩
      else s

def bfwRun (n : Nat) (es : List (Nat × Nat × Int)) (src : Nat) : BFW :=
  (fun s => es.foldl relaxW s)^[n - 1] (bfwInit src)

def U64MAX : Nat := 2 ^ 64 - 1

/-- The saturating `f64 → u64` cast applied by `Duration::from_nanos(-w as u64)`. -/
def satU64 (z : Int) : Nat := if z < 0 then 0 else min z.toNat U64MAX

/-- The path reconstruction loop of `critical_path` (fuel only makes the
recursion structural; `none` models the panic on the synthetic source's
missing node weight — unreachable in the source's intent). -/
def cpWalk [Inhabited N] (g : InnerGraph N) (pr : Nat → Option Nat)
    (srcIdx : Nat) : Nat → Option Nat → List (Entry N) → Option (List (Entry N))
  | 0, _, _ => none
  | fuel + 1, next, path =>
    match next with
    | none => some path
    | some k =>
      if k = srcIdx then some path
      else cpWalk g pr srcIdx fuel (pr k) (path ++ [entryAt g k])

/-- `InnerGraph::critical_path`.  Distances from the synthetic source are
mapped to durations — `INFINITY` (unreached) becomes `NEG_INFINITY`, and
`Duration::from_nanos(-weight as u64)` saturates it to `u64::MAX`; the
(index, duration) pairs are scanned for the maximum (ties keep the last);
the predecessor chain of the winner is folded into the path, reversed.
`none` models the `unwrap` panic when the winner is the synthetic source
itself (the empty graph). -/
def criticalPath [Inhabited N] [DecidableEq N] (g : InnerGraph N)
    (roots : List N) (dur : Entry N → Nat) : Option (Nat × List (Entry N)) :=
  let n := g.entries.length
  let wes1 : List (Nat × Nat × Int) :=
    g.edges.map (fun e => (e.1, e.2, -(dur (entryAt g e.2) : Int)))
  let srcs : List Nat :=
    roots.filterMap (fun r => g.entries.findIdx? (fun e => e.node = r))
  let wes2 : List (Nat × Nat × Int) :=
    srcs.map (fun i => (n, i, -(dur (entryAt g i) : Int)))
  let s := bfwRun (n + 1) (wes1 ++ wes2) n
  let durs : List Nat := (List.range (n + 1)).map (fun v =>
    match s.dist v with
    | none => U64MAX
    | some z => satU64 (-z))
  let pick : Option (Nat × Nat) := durs.enum.foldl
    (fun acc p =>
      match acc with
      | none => some p
      | some q => if q.2 ≤ p.2 then some p else some q) none
  match pick with
  | none => some (0, [])
  | some (idx, total) =>
    if idx = n then none
    else
      (cpWalk g s.pred n (n * ((wes1 ++ wes2).length + 1) + 2) (s.pred idx)
        [entryAt g idx]).map (fun path => (total, path.reverse))

/-! ### Small helper lemmas for the claim theorems -/

theorem entryAt_mem [Inhabited N] (g : InnerGraph N) (i : Nat)
    (h : i < g.entries.length) : entryAt g i ∈ g.entries := by
  rw [entryAt, List.get?_eq_get h]
  exact List.get_mem _ _ _

theorem chain_mem_exists {r : Nat → Nat → Prop} :
    ∀ (l : List Nat) (a : Nat), List.Chain r a l → ∀ x ∈ l, ∃ y, r y x := by
  intro l
  induction l with
  | nil => intro a _ x hx; exact absurd hx (List.not_mem_nil _)
  | cons b l ih =>
    intro a hc x hx
    rcases List.mem_cons.mp hx with rfl | hx
    · exact ⟨a, (List.chain_cons.mp hc).1⟩
    · exact ih b (List.chain_cons.mp hc).2 x hx

/-! ### Concrete fixtures

`gC2` carries a clean `dst → src` path `1 → 2 → 3 → 0` next to a shorter
path `1 → 4 → 0` through the dirty entry 4; `gClean` is a two-entry graph
whose only edge `1 → 0` makes the prospective edge `0 → 1` cyclic; `gC5`
is a single-entry graph with no edges. -/

def gC2 : InnerGraph Nat :=
  { entries := [⟨0, .completed 0 1 false⟩, ⟨1, .completed 0 1 false⟩,
                ⟨2, .completed 0 1 false⟩, ⟨3, .completed 0 1 false⟩,
                ⟨4, .completed 0 1 true⟩],
    edges := [(1, 4), (4, 0), (1, 2), (2, 3), (3, 0), (2, 4)],
    draining := false }

def gClean : InnerGraph Nat :=
  { entries := [⟨0, .completed 0 1 false⟩, ⟨1, .completed 0 1 false⟩],
    edges := [(1, 0)], draining := false }

def gC5 : InnerGraph Nat :=
  { entries := [⟨7, .completed 0 1 false⟩], edges := [], draining := false }

def gEmpty : InnerGraph Nat := { entries := [], edges := [], draining := false }

instance exceptDecEq {ε α : Type} [DecidableEq ε] [DecidableEq α] :
    DecidableEq (Except ε α) := fun x y =>
  match x, y with
  | .ok a, .ok b =>
    if h : a = b then .isTrue (by rw [h])
    else .isFalse (by intro hc; injection hc; contradiction)
  | .ok _, .error _ => .isFalse (by intro hc; cases hc)
  | .error _, .ok _ => .isFalse (by intro hc; cases hc)
  | .error e, .error f =>
    if h : e = f then .isTrue (by rw [h])
    else .isFalse (by intro hc; injection hc; contradiction)

/-- The attempt outcomes of a run whose first seven awaits are invalidated
and whose eighth would succeed. -/
def resSevenInv : Nat → Except NError Nat :=
  fun i => if i < 7 then .error .invalidated else .ok 42

/-! ### C8: self-edge cycle report -/

/-- C8: for an entry `n` present in the graph, `InnerGraph::report_cycle`
with `src = dst` reports the cycle path `[n, n]`.  The function takes the
graph by shared reference and is modelled as a pure function of it, so it
cannot mutate the graph: no edge is added and no entry state changes. -/
theorem self_edge_reports_pair [Inhabited N] (g : InnerGraph N) (i : Nat)
    (e : Entry N) (h : g.entries.get? i = some e) :
    innerReportCycle g i i = some [e, e] := by
  rw [innerReportCycle, if_pos rfl, h]
  rfl

/-- C8 witness: the self edge on entry 4 of the concrete graph. -/
theorem self_edge_reports_pair_witness :
    innerReportCycle gC2 4 4
      = some [⟨4, .completed 0 1 true⟩, ⟨4, .completed 0 1 true⟩] :=
  self_edge_reports_pair gC2 4 ⟨4, .completed 0 1 true⟩ rfl

/-! ### C9: mark_draining -/

/-- C9: `mark_draining(b)` fails exactly when the draining flag already
equals `b`, otherwise flips the flag; in particular a second consecutive
`mark_draining(true)` fails (and, failing, changes nothing — the function
returns the error without touching the graph). -/
theorem mark_draining_spec (g : InnerGraph N) (b : Bool) :
    (markDraining g b = .error () ↔ g.draining = b)
  ∧ (g.draining ≠ b →
      markDraining g b = .ok { entries := g.entries, edges := g.edges, draining := b })
  ∧ (∀ g' : InnerGraph N, markDraining g true = .ok g' →
      markDraining g' true = .error ()) := by
  refine ⟨⟨?_, ?_⟩, ?_, ?_⟩
  · intro h
    by_cases hd : g.draining = b
    · exact hd
    · rw [markDraining, if_neg hd] at h
      cases h
  · intro h; rw [markDraining, if_pos h]
  · intro h; rw [markDraining, if_neg h]
  · intro g' h
    by_cases hd : g.draining = true
    · rw [markDraining, if_pos hd] at h
      cases h
    · rw [markDraining, if_neg hd] at h
      have hg' : g' = { entries := g.entries, edges := g.edges, draining := true } := by
        injection h with h'
        exact h'.symm
      rw [hg', markDraining]
      rfl

/-- The concrete graph once draining has been switched on. -/
def gCleanDraining : InnerGraph Nat :=
  { entries := gClean.entries, edges := gClean.edges, draining := true }

/-- C9 witness: on the concrete graph, draining twice fails the second time. -/
theorem mark_draining_spec_witness :
    markDraining gCleanDraining true = .error () :=
  (mark_draining_spec gClean true).2.2 gCleanDraining
    ((mark_draining_spec gClean true).2.1 (by decide))

/-! ### C10: clear_deps -/

/-- C10: for an entry present in the graph, `clear_deps` with a matching run
token removes exactly the entry's outgoing edges and touches nothing else
(entry states, the draining flag, and every edge with a different source are
kept); with a mismatched run token it changes nothing at all. -/
theorem clear_deps_spec (g : InnerGraph N) (id rt : Nat) (e : Entry N)
    (h : g.entries.get? id = some e) :
    (runTokenOf e.state = rt →
      (clearDeps g id rt).edges = g.edges.filter (fun ed => ed.1 ≠ id)
      ∧ (clearDeps g id rt).entries = g.entries
      ∧ (clearDeps g id rt).draining = g.draining
      ∧ (∀ ed ∈ g.edges, ed.1 ≠ id → ed ∈ (clearDeps g id rt).edges))
  ∧ (runTokenOf e.state ≠ rt → clearDeps g id rt = g) := by
  constructor
  · intro hrt
    have hcd : clearDeps g id rt =
        { entries := g.entries, edges := g.edges.filter (fun ed => ed.1 ≠ id),
          draining := g.draining } := by
      rw [clearDeps, h]
      simp only [hrt, ne_eq, not_true_eq_false, if_false]
    refine ⟨by rw [hcd], by rw [hcd], by rw [hcd], ?_⟩
    intro ed hed hne
    rw [hcd]
    simp only [List.mem_filter, decide_eq_true_eq]
    exact ⟨hed, hne⟩
  · intro hrt
    rw [clearDeps, h]
    simp only [ne_eq, hrt, not_false_eq_true, if_true]

/-- C10 witness: clearing the deps of entry 1 with its current (0) and with a
stale (5) run token. -/
theorem clear_deps_spec_witness :
    (clearDeps gC2 1 0).edges = [(4, 0), (2, 3), (3, 0), (2, 4)]
    ∧ clearDeps gC2 1 5 = gC2 := by
  constructor
  · have h := (clear_deps_spec gC2 1 0 ⟨1, .completed 0 1 false⟩ rfl).1 rfl
    rw [h.1]
    decide
  · exact (clear_deps_spec gC2 1 5 ⟨1, .completed 0 1 false⟩ rfl).2 (by decide)

/-! ### C1: the retry budget -/

/-- C1 counterexample: all of the first seven awaits end in *invalidated*
and the eighth would succeed with 42; the claim ("up to 8 attempts ... an
attempt ending in success returns its value") then demands `ok 42`, but the
code's loop (counter starts at 8 and is decremented before the attempt)
never makes the eighth attempt and fails with *exhausted*. -/
theorem retry_eighth_attempt_never_made :
    (∀ j, j < 7 → resSevenInv j = .error .invalidated)
    ∧ resSevenInv 7 = .ok 42
    ∧ retryGet resSevenInv = .error .exhausted := by
  refine ⟨?_, by decide, by decide⟩
  intro j hj
  simp [resSevenInv, hj]

theorem retryFrom_all_invalidated {α : Type} (res : Nat → Except NError α) :
    ∀ c i, (∀ j, j < c - 1 → res (i + j) = .error .invalidated) →
      retryFrom res c i = .error .exhausted := by
  intro c
  induction c using Nat.strong_induction_on with
  | _ c ih =>
    intro i hall
    match c with
    | 0 => rfl
    | 1 => rfl
    | c + 2 =>
      have h0 : res i = .error .invalidated := by
        have := hall 0 (by omega)
        simpa using this
      rw [retryFrom, h0]
      simp only [if_pos rfl]
      exact ih (c + 1) (by omega) (i + 1) (fun j hj => by
        have := hall (j + 1) (by omega)
        rw [show i + 1 + j = i + (j + 1) by omega]
        exact this)

theorem retryFrom_first_settles {α : Type} (res : Nat → Except NError α) :
    ∀ c i k, k < c - 1 → (∀ j, j < k → res (i + j) = .error .invalidated) →
      res (i + k) ≠ .error .invalidated → retryFrom res c i = res (i + k) := by
  intro c
  induction c using Nat.strong_induction_on with
  | _ c ih =>
    intro i k hk hall hne
    match c with
    | 0 => omega
    | 1 => omega
    | c + 2 =>
      match k with
      | 0 =>
        simp only [Nat.add_zero] at hne ⊢
        rw [retryFrom]
        match hres : res i with
        | .ok v => rfl
        | .error e =>
          rw [hres] at hne
          have he : e ≠ .invalidated := fun hc => hne (by rw [hc])
          simp only [if_neg he]
      | k + 1 =>
        have h0 : res i = .error .invalidated := by
          have := hall 0 (by omega)
          simpa using this
        rw [retryFrom, h0]
        simp only [if_pos rfl]
        rw [show i + (k + 1) = (i + 1) + k by omega] at hne ⊢
        exact ih (c + 1) (by omega) (i + 1) k (by omega)
          (fun j hj => by
            have := hall (j + 1) (by omega)
            rw [show i + 1 + j = i + (j + 1) by omega]
            exact this) hne

/-- C1 amended: the retry-eligible `get` makes up to **7** attempts (the
counter starts at 8 but is decremented before each attempt): the first
attempt whose outcome is not *invalidated* settles the call with that
outcome, and if all 7 attempts end in *invalidated* the call fails with
*exhausted*. -/
theorem retry_seven_attempts {α : Type} (res : Nat → Except NError α) :
    ((∀ j, j < 7 → res j = .error .invalidated) →
      retryGet res = .error .exhausted)
  ∧ (∀ k, k < 7 → (∀ j, j < k → res j = .error .invalidated) →
      res k ≠ .error .invalidated → retryGet res = res k) := by
  constructor
  · intro h
    exact retryFrom_all_invalidated res 8 0 (fun j hj => by
      have := h j (by omega)
      simpa using this)
  · intro k hk hall hne
    have := retryFrom_first_settles res 8 0 k (by omega)
      (fun j hj => by simpa using hall j hj) (by simpa using hne)
    simpa [retryGet] using this

/-- C1 witness: seven invalidated outcomes exhaust the budget; an
invalidated-free first attempt settles immediately. -/
theorem retry_seven_attempts_witness :
    retryGet (fun _ => (.error .invalidated : Except NError Nat))
        = .error .exhausted
    ∧ retryGet (fun _ => (.ok 5 : Except NError Nat)) = .ok 5 := by
  constructor
  · exact (retry_seven_attempts (fun _ => (.error .invalidated : Except NError Nat))).1
      (fun j hj => rfl)
  · exact (retry_seven_attempts (fun _ => (.ok 5 : Except NError Nat))).2 0 (by omega)
      (fun j hj => absurd hj (by omega)) (by decide)

/-! ### C4: the walk and its stop predicate -/

/-- C4 counterexample: a walk rooted at node 1 with a stop predicate that is
true at 1.  The claim says a stopped node is yielded (only its neighbors are
not enqueued); the code instead skips the node entirely, so the walk yields
nothing at all. -/
theorem stopped_root_not_yielded :
    walkList gC2 .outgoing (fun i => decide (i = 1)) [1] = []
    ∧ decide ((1 : Nat) = 1) = true := by
  decide

/-- C4 amended: every walk yields each node at most once, and a node at
which the stop predicate is true is skipped: it is neither yielded nor
descended through — a node is yielded exactly when some root reaches it by
edges leaving only un-stopped nodes and it is un-stopped itself. -/
theorem walk_yields_once_and_skips_stopped (g : InnerGraph N) (d : Direction)
    (stop : Nat → Bool) (roots : List Nat) :
    (walkList g d stop roots).Nodup
  ∧ (∀ v, stop v = true → v ∉ walkList g d stop roots)
  ∧ (∀ v, v ∈ walkList g d stop roots ↔
      ReachWith g.edges d stop roots v ∧ stop v = false) := by
  refine ⟨walkList_nodup g d stop roots, ?_, fun v => walkList_mem g d stop roots v⟩
  intro v hv hc
  have := (walkList_mem g d stop roots v).mp hc
  rw [hv] at this
  exact absurd this.2 (by simp)

/-- C4 amended witness: on the concrete graph, the walk rooted at the
stopped node 1 yields nothing, once each. -/
theorem walk_yields_once_and_skips_stopped_witness :
    (walkList gC2 .outgoing (fun i => decide (i = 1)) [1]).Nodup
    ∧ (1 : Nat) ∉ walkList gC2 .outgoing (fun i => decide (i = 1)) [1] :=
  ⟨(walk_yields_once_and_skips_stopped gC2 .outgoing
      (fun i => decide (i = 1)) [1]).1,
   (walk_yields_once_and_skips_stopped gC2 .outgoing
      (fun i => decide (i = 1)) [1]).2.1 1 (by decide)⟩

/-! ### C5: critical_path with no matching roots -/

/-- C5: the claim (and the source's own comment, which maps unreached
`INFINITY` weights to `NEG_INFINITY` so that they cannot win the maximum)
requires `(0, [])`.  The code instead feeds `-NEG_INFINITY` through the
saturating `as u64` cast inside `Duration::from_nanos`, so every node that
is unreachable from the synthetic source gets duration `u64::MAX`, wins the
maximum, and is returned as a one-entry path; on a fully empty graph the
reconstruction unwraps the synthetic source's `None` node weight and
panics. -/
theorem critical_path_empty_roots_wrong :
    criticalPath gC5 [] (fun _ => 5)
        = some (U64MAX, [⟨7, .completed 0 1 false⟩])
    ∧ (U64MAX, [(⟨7, .completed 0 1 false⟩ : Entry Nat)])
        ≠ ((0, []) : Nat × List (Entry Nat))
    ∧ criticalPath gEmpty [] (fun _ => 5) = none := by
  refine ⟨by decide, ?_, by decide⟩
  intro h
  have := congrArg Prod.snd h
  simp at this

/-! ### C6 and C7: invalidate_from_roots -/

theorem mem_rootIdsOf [Inhabited N] (g : InnerGraph N) (prd : N → Bool)
    (i : Nat) :
    i ∈ rootIdsOf g prd ↔
      i < g.entries.length ∧ prd (entryAt g i).node = true ∧
        isStarted (entryAt g i).state = true := by
  rw [rootIdsOf, List.mem_filter, List.mem_range]
  simp [Bool.and_eq_true, and_assoc]

theorem invalidate_entries_get? [Inhabited N] (g : InnerGraph N)
    (prd : N → Bool) (i : Nat) :
    (invalidateFromRoots g prd).1.entries.get? i =
      (g.entries.get? i).map (fun e =>
        if i ∈ rootIdsOf g prd then { e with state := clearState e.state }
        else if i ∈ transitiveIdsOf g prd then { e with state := dirtyState e.state }
        else e) := by
  rw [invalidateFromRoots]
  simp only []
  rw [mapWithIndex_get?]
  simp

/-- C6: after `invalidate_from_roots(P)` every started entry matching `P` is
cleared to `NotStarted` (with a bumped run token); entries matching `P` that
were `NotStarted` are untouched; every edge whose source is such a root is
removed (and only those); and the returned `cleared` count is the number of
started entries matching `P`. -/
theorem invalidate_clears_matching_roots [Inhabited N] (g : InnerGraph N)
    (prd : N → Bool) :
    (∀ i e, g.entries.get? i = some e → prd e.node = true →
      isStarted e.state = true →
      (invalidateFromRoots g prd).1.entries.get? i =
        some ⟨e.node, .notStarted (runTokenOf e.state + 1)⟩)
  ∧ (∀ i e, g.entries.get? i = some e → prd e.node = true →
      isStarted e.state = false →
      (invalidateFromRoots g prd).1.entries.get? i = some e)
  ∧ (invalidateFromRoots g prd).1.edges
      = g.edges.filter (fun ed => ed.1 ∉ rootIdsOf g prd)
  ∧ (invalidateFromRoots g prd).2.cleared
      = ((Finset.range g.entries.length).filter
          (fun i => prd (entryAt g i).node = true ∧
            isStarted (entryAt g i).state = true)).card := by
  have hat : ∀ i e, g.entries.get? i = some e → entryAt g i = e := by
    intro i e h
    rw [entryAt, h]
    rfl
  have hlt : ∀ (i : Nat) (e : Entry N), g.entries.get? i = some e →
      i < g.entries.length := by
    intro i e h
    by_contra hc
    rw [List.get?_eq_none.mpr (by omega)] at h
    cases h
  refine ⟨?_, ?_, ?_, ?_⟩
  · intro i e hget hprd hst
    have hroot : i ∈ rootIdsOf g prd := by
      rw [mem_rootIdsOf]
      exact ⟨hlt i e hget, by rw [hat i e hget]; exact hprd,
        by rw [hat i e hget]; exact hst⟩
    rw [invalidate_entries_get?, hget]
    simp only [Option.map_some', if_pos hroot]
    rfl
  · intro i e hget hprd hst
    have hroot : i ∉ rootIdsOf g prd := by
      rw [mem_rootIdsOf, hat i e hget]
      intro hc
      rw [hst] at hc
      exact absurd hc.2.2 (by simp)
    rw [invalidate_entries_get?, hget]
    simp only [Option.map_some', if_neg hroot]
    by_cases htr : i ∈ transitiveIdsOf g prd
    · rw [if_pos htr]
      match e, hst with
      | ⟨nd, .notStarted rt⟩, _ => rfl
    · rw [if_neg htr]
  · rfl
  · have hnd : (rootIdsOf g prd).Nodup :=
      (List.nodup_range _).filter _
    have h1 : (rootIdsOf g prd).length = (rootIdsOf g prd).toFinset.card :=
      (List.toFinset_card_of_nodup hnd).symm
    have h2 : (rootIdsOf g prd).toFinset =
        (Finset.range g.entries.length).filter
          (fun i => prd (entryAt g i).node = true ∧
            isStarted (entryAt g i).state = true) := by
      ext x
      rw [List.mem_toFinset, mem_rootIdsOf, Finset.mem_filter, Finset.mem_range]
    have h0 : (invalidateFromRoots g prd).2.cleared = (rootIdsOf g prd).length := rfl
    rw [h0, h1]
    exact congrArg Finset.card h2

/-- C6 witness: invalidating the dirty started entry 4 of the concrete graph
clears it, leaves the matching-but-`NotStarted` case vacuous, and counts 1. -/
theorem invalidate_clears_matching_roots_witness :
    (invalidateFromRoots gC2 (fun n => decide (n = 4))).1.entries.get? 4
        = some ⟨4, .notStarted 1⟩
    ∧ (invalidateFromRoots gC2 (fun n => decide (n = 4))).2.cleared
        = ((Finset.range gC2.entries.length).filter
            (fun i => (fun n => decide (n = 4)) (entryAt gC2 i).node = true ∧
              isStarted (entryAt gC2 i).state = true)).card := by
  constructor
  · exact (invalidate_clears_matching_roots gC2 (fun n => decide (n = 4))).1 4
      ⟨4, .completed 0 1 true⟩ rfl (by decide) (by decide)
  · exact (invalidate_clears_matching_roots gC2 (fun n => decide (n = 4))).2.2.2

/-- `v` transitively depends on one of the roots: some root reaches it by
following dependency edges backwards (along incoming edges). -/
def DependsOnRoot (g : InnerGraph N) (roots : List Nat) (v : Nat) : Prop :=
  ∃ r ∈ roots, Relation.ReflTransGen (fun a b => (b, a) ∈ g.edges) r v

theorem reachWith_incoming_iff (g : InnerGraph N) (roots : List Nat) (v : Nat) :
    ReachWith g.edges .incoming (fun _ => false) roots v ↔
      DependsOnRoot g roots v := by
  rw [ReachWith, DependsOnRoot]
  constructor
  · rintro ⟨r, hr, hp⟩
    refine ⟨r, hr, ?_⟩
    exact (rtg_iff_of_iff (fun a b => by simp [stepRel_incoming]) r v).mp hp
  · rintro ⟨r, hr, hp⟩
    refine ⟨r, hr, ?_⟩
    exact (rtg_iff_of_iff (fun a b => by simp [stepRel_incoming]) r v).mpr hp

/-- C7: after `invalidate_from_roots(P)`, the dirtied set is exactly the set
of entries reachable from the root set along incoming edges, the roots
themselves excluded; it is enumerated without duplicates and its size is the
returned `dirtied` count; every completed entry in it has its dirty bit set,
and every outgoing edge of such an entry survives. -/
theorem invalidate_dirties_dependents [Inhabited N] (g : InnerGraph N)
    (prd : N → Bool) :
    (∀ v, v ∈ transitiveIdsOf g prd ↔
      (DependsOnRoot g (rootIdsOf g prd) v ∧ v ∉ rootIdsOf g prd))
  ∧ (transitiveIdsOf g prd).Nodup
  ∧ (invalidateFromRoots g prd).2.dirtied = (transitiveIdsOf g prd).length
  ∧ (∀ i e rt gen d, g.entries.get? i = some e → i ∈ transitiveIdsOf g prd →
      e.state = .completed rt gen d →
      (invalidateFromRoots g prd).1.entries.get? i =
        some ⟨e.node, .completed rt gen true⟩)
  ∧ (∀ ed ∈ g.edges, ed.1 ∈ transitiveIdsOf g prd →
      ed ∈ (invalidateFromRoots g prd).1.edges) := by
  have hmem : ∀ v, v ∈ transitiveIdsOf g prd ↔
      (DependsOnRoot g (rootIdsOf g prd) v ∧ v ∉ rootIdsOf g prd) := by
    intro v
    rw [transitiveIdsOf, List.mem_filter]
    rw [walkList_mem g .incoming (fun _ => false) (rootIdsOf g prd) v,
      reachWith_incoming_iff]
    simp
  refine ⟨hmem, ?_, rfl, ?_, ?_⟩
  · exact (walkList_nodup g .incoming _ _).filter _
  · intro i e rt gen d hget htr hst
    have hroot : i ∉ rootIdsOf g prd := ((hmem i).mp htr).2
    rw [invalidate_entries_get?, hget]
    simp only [Option.map_some', if_neg hroot, if_pos htr]
    rw [hst]
    rfl
  · intro ed hed htr
    have hroot : ed.1 ∉ rootIdsOf g prd := ((hmem ed.1).mp htr).2
    have : (invalidateFromRoots g prd).1.edges
        = g.edges.filter (fun e => e.1 ∉ rootIdsOf g prd) := rfl
    rw [this, List.mem_filter]
    exact ⟨hed, by simpa using hroot⟩

/-- C7 witness: invalidating entry 4 of the concrete graph dirties its
transitive dependents 1 and 2 (and counts them). -/
theorem invalidate_dirties_dependents_witness :
    (invalidateFromRoots gC2 (fun n => decide (n = 4))).2.dirtied
        = (transitiveIdsOf gC2 (fun n => decide (n = 4))).length
    ∧ (invalidateFromRoots gC2 (fun n => decide (n = 4))).1.entries.get? 1
        = some ⟨1, .completed 0 1 true⟩ := by
  constructor
  · exact (invalidate_dirties_dependents gC2 (fun n => decide (n = 4))).2.2.1
  · exact (invalidate_dirties_dependents gC2 (fun n => decide (n = 4))).2.2.2.1 1
      ⟨1, .completed 0 1 false⟩ 0 1 false rfl (by decide) rfl

/-! ### C3: the cycle-resolution loop of `Graph::report_cycle` -/

theorem reportCycleLoop_count [Inhabited N] [DecidableEq N] (src dst : Nat) :
    ∀ (r : Nat) (g : InnerGraph N) (cnt : Nat),
      (reportCycleLoop src dst r g cnt).2.2 ≤ cnt + r := by
  intro r
  induction r with
  | zero =>
    intro g cnt
    rcases hic : innerReportCycle g src dst with _ | p <;>
      simp [reportCycleLoop, hic]
  | succ r ih =>
    intro g cnt
    rcases hic : innerReportCycle g src dst with _ | p
    · simp [reportCycleLoop, hic]
    · by_cases hd : dirtyNodesOf p = []
      · simp [reportCycleLoop, hic, hd]
      · have hrec := ih (invalidateFromRoots g (fun n => n ∈ dirtyNodesOf p)).1
          (cnt + 1)
        simp only [reportCycleLoop, hic, if_neg hd]
        omega

theorem reportCycleLoop_dirty_cnt [Inhabited N] [DecidableEq N] (src dst : Nat) :
    ∀ (r : Nat) (g : InnerGraph N) (cnt : Nat) (p : List (Entry N))
      (g' : InnerGraph N) (cnt' : Nat),
      reportCycleLoop src dst r g cnt = (some p, g', cnt') →
      dirtyNodesOf p ≠ [] → cnt' = cnt + r := by
  intro r
  induction r with
  | zero =>
    intro g cnt p g' cnt' h hd
    rcases hic : innerReportCycle g src dst with _ | p0 <;>
        simp only [reportCycleLoop, hic] at h
    · cases h
    · injection h with h1 h2
      injection h2 with h2 h3
      omega
  | succ r ih =>
    intro g cnt p g' cnt' h hd
    rcases hic : innerReportCycle g src dst with _ | p0 <;>
        simp only [reportCycleLoop, hic] at h
    · cases h
    · by_cases hd0 : dirtyNodesOf p0 = []
      · rw [if_pos hd0] at h
        injection h with h1 h2
        have hp : p0 = p := by injection h1
        rw [← hp, hd0] at hd
        exact absurd rfl hd
      · rw [if_neg hd0] at h
        have := ih _ (cnt + 1) p g' cnt' h hd
        omega

/-- C3: whenever `inner.report_cycle` finds a cycle path `p` containing a
dirty entry, the façade invalidates with a predicate holding exactly of the
dirty nodes of `p` and re-checks on the invalidated graph with one fewer
round in the budget; the loop never performs more than its 10 invalidation
rounds; with the budget exhausted, a found path is reported as-is; and a
reported path that still contains dirty entries means the full budget was
spent first. -/
theorem cycle_resolution_budget [Inhabited N] [DecidableEq N] (src dst : Nat)
    (g : InnerGraph N) (p : List (Entry N))
    (h1 : innerReportCycle g src dst = some p) (h2 : dirtyNodesOf p ≠ []) :
    (∀ r cnt, reportCycleLoop src dst (r + 1) g cnt
        = reportCycleLoop src dst r
            (invalidateFromRoots g (fun n => n ∈ dirtyNodesOf p)).1 (cnt + 1))
  ∧ reportCycleLoop src dst 0 g 0 = (some p, g, 0)
  ∧ (∀ g' : InnerGraph N, (facadeReportCycle src dst g').2.2 ≤ 10)
  ∧ (∀ (r cnt : Nat) (g' : InnerGraph N) (p' : List (Entry N))
      (g'' : InnerGraph N) (cnt' : Nat),
      reportCycleLoop src dst r g' cnt = (some p', g'', cnt') →
      dirtyNodesOf p' ≠ [] → cnt' = cnt + r) := by
  refine ⟨?_, ?_, ?_, ?_⟩
  · intro r cnt
    simp only [reportCycleLoop, h1, if_neg h2]
  · simp only [reportCycleLoop, h1]
  · intro g'
    have := reportCycleLoop_count src dst 10 g' 0
    simpa [facadeReportCycle] using this
  · intro r cnt g' p' g'' cnt' h hd
    exact reportCycleLoop_dirty_cnt src dst r g' cnt p' g'' cnt' h hd

/-- The dirty cycle path found for the prospective edge `0 → 1` of the
concrete graph: `[1, 4, 0, 1]` through the dirty entry 4. -/
def pathC2 : List (Entry Nat) :=
  [⟨1, .completed 0 1 false⟩, ⟨4, .completed 0 1 true⟩,
   ⟨0, .completed 0 1 false⟩, ⟨1, .completed 0 1 false⟩]

/-- C3 witness: on the concrete graph, the budget-exhausted loop reports the
dirty path as-is. -/
theorem cycle_resolution_budget_witness :
    reportCycleLoop 0 1 0 gC2 0 = (some pathC2, gC2, 0) :=
  (cycle_resolution_budget 0 1 gC2 pathC2 (by decide) (by decide)).2.1

/-! ### C2: rejection of a clean cycle -/

/-- C2 counterexample: in `gC2` a path of clean edges runs from the
destination entry 1 back to the source entry 0 (`1 → 2 → 3 → 0`; the entries
0, 1, 2, 3 are all clean), yet the `get` inserting `0 → 1` does not fail
with *cyclic* and the edge is added: the resolution loop first finds the
shorter cycle path through the dirty entry 4, and its invalidations dirty
and then clear entries 1 and 2, destroying the clean path before the
re-check. -/
theorem clean_cycle_edge_still_added :
    ((1, 2) ∈ gC2.edges ∧ (2, 3) ∈ gC2.edges ∧ (3, 0) ∈ gC2.edges)
    ∧ (isClean (entryAt gC2 0).state = true ∧ isClean (entryAt gC2 1).state = true
        ∧ isClean (entryAt gC2 2).state = true ∧ isClean (entryAt gC2 3).state = true)
    ∧ gC2.entries.findIdx? (fun e => e.node = 1) = some 1
    ∧ (getInnerSync (fun _ => "") (fun _ => false) gC2 (some 0) 1).1
        = .await true 1
    ∧ (0, 1) ∈ (getInnerSync (fun _ => "") (fun _ => false) gC2 (some 0) 1).2.edges := by
  decide

theorem head?_append_of_head? {l l' : List Nat} {x : Nat}
    (h : l.head? = some x) : (l ++ l').head? = some x := by
  cases l with
  | nil => cases h
  | cons c t => exact h

/-- C2 amended: for a `get` with a src entry given, where a path of clean
edges from the dst entry back to the src entry already exists (including
`src = dst`) **and no entry of the graph is dirty**, the call returns the
cyclic error carrying the display strings of the entries on the cycle path
`[dst, ..., src, dst]`, and the graph is left unchanged — in particular the
edge `src → dst` is not added.  (The extra all-clean hypothesis is forced by
`clean_cycle_edge_still_added`: dirty entries elsewhere can make the
resolution loop destroy the clean path and admit the edge.) -/
theorem clean_graph_cycle_rejected [Inhabited N] [DecidableEq N]
    (display : N → String) (cach : N → Bool) (g : InnerGraph N) (dstN : N)
    (i j : Nat)
    (hdr : g.draining = false)
    (hwf : ∀ e ∈ g.edges, e.1 < g.entries.length ∧ e.2 < g.entries.length)
    (hi : i < g.entries.length) (hj : j < g.entries.length)
    (hfind : g.entries.findIdx? (fun e => e.node = dstN) = some j)
    (hclean : ∀ e ∈ g.entries, isClean e.state = true)
    (hpath : Relation.ReflTransGen (fun a b => (a, b) ∈ g.edges) j i) :
    ∃ ids : List Nat,
      ids.head? = some j ∧ ids.getLast? = some j ∧ i ∈ ids ∧
      List.Chain' (fun a b => (a, b) ∈ g.edges) ids.dropLast ∧
      getInnerSync display cach g (some i) dstN =
        (.err (.cyclic (ids.map (fun k => display (entryAt g k).node))), g) := by
  have hstep : ∃ ids : List Nat,
      ids.head? = some j ∧ ids.getLast? = some j ∧ i ∈ ids ∧
      List.Chain' (fun a b => (a, b) ∈ g.edges) ids.dropLast ∧
      (∀ k ∈ ids, k < g.entries.length) ∧
      innerReportCycle g i j = some (ids.map (entryAt g)) := by
    by_cases hij : i = j
    · subst hij
      refine ⟨[i, i], rfl, rfl, List.mem_cons_self _ _, ?_, ?_, ?_⟩
      · exact List.chain'_singleton i
      · intro k hk
        rcases List.mem_cons.mp hk with rfl | hk
        · exact hi
        · rcases List.mem_cons.mp hk with rfl | hk
          · exact hi
          · exact absurd hk (List.not_mem_nil _)
      · have he : entryAt g i = g.entries.get ⟨i, hi⟩ := by
          rw [entryAt, List.get?_eq_get hi]
          rfl
        rw [innerReportCycle, if_pos rfl, List.get?_eq_get hi]
        simp only [List.map_cons, List.map_nil, he]
        rfl
    · obtain ⟨suf, hsp, hsufne, hlast, hchain⟩ :=
        shortestPathIds_of_reach g.entries.length g.edges j i hwf hj hij hpath
      refine ⟨(i :: suf).reverse ++ [j], ?_, List.getLast?_concat _, ?_, ?_, ?_, ?_⟩
      · apply head?_append_of_head?
        rw [List.head?_reverse]
        exact hlast
      · exact List.mem_append_left _ (List.mem_reverse.mpr (List.mem_cons_self _ _))
      · rw [List.dropLast_concat]
        apply List.chain'_reverse.mpr
        exact hchain
      · intro k hk
        rcases List.mem_append.mp hk with hk | hk
        · rcases List.mem_cons.mp (List.mem_reverse.mp hk) with rfl | hk
          · exact hi
          · obtain ⟨y, hy⟩ := chain_mem_exists suf i hchain k hk
            exact (hwf _ hy).1
        · rcases List.mem_cons.mp hk with rfl | hk
          · exact hj
          · exact absurd hk (List.not_mem_nil _)
      · rw [innerReportCycle, if_neg hij,
          if_pos ((detectCycle_iff g i j).mpr hpath), hsp]
        rfl
  obtain ⟨ids, hhead, hlast, hmemi, hchain, hlt, hinner⟩ := hstep
  have hcyc_clean : dirtyNodesOf (ids.map (entryAt g)) = [] := by
    rw [dirtyNodesOf]
    rw [show ((ids.map (entryAt g)).filter (fun e => !isClean e.state)) = [] from ?_]
    · rfl
    · rw [List.filter_eq_nil_iff]
      intro a ha
      obtain ⟨k, hk, rfl⟩ := List.mem_map.mp ha
      rw [hclean (entryAt g k) (entryAt_mem g k (hlt k hk))]
      simp
  have hloop : facadeReportCycle i j g = (some (ids.map (entryAt g)), g, 0) := by
    rw [facadeReportCycle]
    simp only [reportCycleLoop, hinner, if_pos hcyc_clean]
  have hens : ensureEntry g dstN = (g, j) := by
    rw [ensureEntry, hfind]
  refine ⟨ids, hhead, hlast, hmemi, hchain, ?_⟩
  rw [getInnerSync]
  simp only [hdr, Bool.false_eq_true, if_false, hens, hloop, List.map_map]
  rfl

/-- C2 amended witness: on the all-clean two-entry graph with the single
edge `1 → 0`, the `get` inserting `0 → 1` is rejected as cyclic and the
graph is unchanged. -/
theorem clean_graph_cycle_rejected_witness :
    ∃ ids : List Nat,
      ids.head? = some 1 ∧ ids.getLast? = some 1 ∧ 0 ∈ ids ∧
      List.Chain' (fun a b => (a, b) ∈ gClean.edges) ids.dropLast ∧
      getInnerSync (fun n => toString n) (fun _ => true) gClean (some 0) 1 =
        (.err (.cyclic (ids.map
          (fun k => (fun n => toString n) (entryAt gClean k).node))), gClean) :=
  clean_graph_cycle_rejected (fun n => toString n) (fun _ => true) gClean 1 0 1
    rfl (by decide) (by decide) (by decide) (by decide) (by decide)
    (Relation.ReflTransGen.single (by decide))

end PantsGraph
